import Mathlib

/-!
# Verification of the Safety360 backend core (src/main.py)

Shallow embedding of the core subsystems of the Safety360 backend:

* `SimpleEncryptionManager` (PBKDF2 + Fernet envelope encryption),
* `AuditLogger` (SQLite-backed append-only audit trail),
* `analyze_pdf_safety` (rule-based keyword analysis),
* the template registry (specified in §4.3 of the spec; no code for it
  exists in `src/main.py`, so it is modelled from the spec).

Bytes are modelled as `Nat` values `< 256`; byte strings as `List Nat`.
Python `str` values are modelled as Lean `String`/`List Char`.

The external `cryptography` library primitives are modelled symbolically:
PBKDF2 is a deterministic, collision-free key-derivation function, so a
derived key is represented by the pair `(master, salt)` itself; a Fernet
token is represented as an (injectively encoded) pair of the key and the
plaintext, protected by a checksum byte that detects every single-byte
modification — the executable stand-in for Fernet's HMAC-SHA256 integrity
tag.  Randomness (`os.urandom`) is modelled by passing the drawn bytes as
explicit arguments.
-/

namespace Safety360

/-! ## Hex encoding — models Python `bytes.hex()` / `bytes.fromhex()` -/

/-- Lower-case hex digit for a value `< 16` (as produced by `bytes.hex()`). -/
def hexDigitChar (n : Nat) : Char :=
  if n < 10 then Char.ofNat (48 + n) else Char.ofNat (87 + n)

/-- Two lower-case hex digits of one byte. -/
def byteToHex (b : Nat) : List Char :=
  [hexDigitChar (b / 16), hexDigitChar (b % 16)]

/-- Models Python `bytes.hex()`: lower-case hex, two digits per byte. -/
def bytesToHex : List Nat → List Char
  | [] => []
  | b :: bs => byteToHex b ++ bytesToHex bs

/-- Value of one hex digit, accepting both cases as `bytes.fromhex` does. -/
def hexDigitVal (c : Char) : Option Nat :=
  let n := c.toNat
  if 48 ≤ n ∧ n ≤ 57 then some (n - 48)
  else if 97 ≤ n ∧ n ≤ 102 then some (n - 87)
  else if 65 ≤ n ∧ n ≤ 70 then some (n - 55)
  else none

/-- Models Python `bytes.fromhex` (without its optional whitespace skipping,
which never occurs in hex produced by this system): pairs of hex digits. -/
def hexToBytes : List Char → Option (List Nat)
  | [] => some []
  | [_] => none
  | c1 :: c2 :: rest =>
    match hexDigitVal c1, hexDigitVal c2, hexToBytes rest with
    | some h, some l, some bs => some ((16 * h + l) :: bs)
    | _, _, _ => none

/-! ## UTF-8 — models Python `str.encode("utf-8")` / `bytes.decode("utf-8")` -/

/-- UTF-8 bytes of one Unicode scalar value. -/
def utf8EncodeNat (n : Nat) : List Nat :=
  if n < 0x80 then [n]
  else if n < 0x800 then [0xC0 + n / 64, 0x80 + n % 64]
  else if n < 0x10000 then [0xE0 + n / 4096, 0x80 + n / 64 % 64, 0x80 + n % 64]
  else [0xF0 + n / 262144, 0x80 + n / 4096 % 64, 0x80 + n / 64 % 64, 0x80 + n % 64]

/-- Models `str.encode("utf-8")`. -/
def utf8Encode : List Char → List Nat
  | [] => []
  | c :: cs => utf8EncodeNat c.toNat ++ utf8Encode cs

/-- One step of a strict byte-at-a-time UTF-8 decoder.  The state is
`none` between characters and `some (len, need, v)` inside a multi-byte
character of total length `len` with `need` continuation bytes still
missing and accumulated value `v`.  Malformed sequences, overlong
encodings, surrogates and out-of-range values are rejected, as
`bytes.decode("utf-8")` rejects them. -/
def utf8DecodeAux : List Nat → Option (Nat × Nat × Nat) → Option (List Char)
  | [], none => some []
  | [], some _ => none
  | b :: rest, none =>
    if b < 0x80 then (utf8DecodeAux rest none).map (fun cs => Char.ofNat b :: cs)
    else if b < 0xC0 then none
    else if b < 0xE0 then utf8DecodeAux rest (some (2, 1, b - 0xC0))
    else if b < 0xF0 then utf8DecodeAux rest (some (3, 2, b - 0xE0))
    else if b < 0xF8 then utf8DecodeAux rest (some (4, 3, b - 0xF0))
    else none
  | b :: rest, some (len, 1, v) =>
    if 0x80 ≤ b ∧ b < 0xC0 then
      if len = 2 ∧ 0x80 ≤ v * 64 + (b - 0x80) ∨
          len = 3 ∧ 0x800 ≤ v * 64 + (b - 0x80) ∧
            (v * 64 + (b - 0x80) < 0xD800 ∨ 0xDFFF < v * 64 + (b - 0x80)) ∨
          len = 4 ∧ 0x10000 ≤ v * 64 + (b - 0x80) ∧ v * 64 + (b - 0x80) < 0x110000 then
        (utf8DecodeAux rest none).map (fun cs => Char.ofNat (v * 64 + (b - 0x80)) :: cs)
      else none
    else none
  | b :: rest, some (len, need + 2, v) =>
    if 0x80 ≤ b ∧ b < 0xC0 then
      utf8DecodeAux rest (some (len, need + 1, v * 64 + (b - 0x80)))
    else none
  | _ :: _, some (_, 0, _) => none

/-- Models `bytes.decode("utf-8")` (strict). -/
def utf8Decode (bs : List Nat) : Option (List Char) :=
  utf8DecodeAux bs none

/-! ## JSON-serializable Python values and `json.dumps`

`encrypt` accepts `data: Any` and serializes non-`str` input with
`json.dumps(data, ensure_ascii=False)`.  `PyVal` covers the
JSON-serializable values (floats elided). -/

mutual
inductive PyVal : Type where
  | str : String → PyVal
  | int : Int → PyVal
  | bool : Bool → PyVal
  | null : PyVal
  | list : PyList → PyVal
  | dict : PyDict → PyVal

inductive PyList : Type where
  | nil : PyList
  | cons : PyVal → PyList → PyList

inductive PyDict : Type where
  | nil : PyDict
  | cons : String → PyVal → PyDict → PyDict
end

/-- JSON escape of one character, as `json.dumps(..., ensure_ascii=False)`
produces it. -/
def jsonEscapeChar (c : Char) : List Char :=
  if c = '"' then ['\\', '"']
  else if c = '\\' then ['\\', '\\']
  else if c = '\n' then ['\\', 'n']
  else if c = '\t' then ['\\', 't']
  else if c = '\r' then ['\\', 'r']
  else if c.toNat = 8 then ['\\', 'b']
  else if c.toNat = 12 then ['\\', 'f']
  else if c.toNat < 0x20 then
    ['\\', 'u', '0', '0', hexDigitChar (c.toNat / 16), hexDigitChar (c.toNat % 16)]
  else [c]

def jsonEscape : List Char → List Char
  | [] => []
  | c :: cs => jsonEscapeChar c ++ jsonEscape cs

/-- A JSON string literal. -/
def jsonQuote (s : List Char) : List Char :=
  '"' :: jsonEscape s ++ ['"']

mutual
/-- Models `json.dumps(v, ensure_ascii=False)` (default separators). -/
def jsonDumps : PyVal → List Char
  | .str s => jsonQuote s.data
  | .int n => (toString n).data
  | .bool b => if b then ['t', 'r', 'u', 'e'] else ['f', 'a', 'l', 's', 'e']
  | .null => ['n', 'u', 'l', 'l']
  | .list xs => '[' :: jsonDumpsList xs ++ [']']
  | .dict kvs => Char.ofNat 123 :: jsonDumpsDict kvs ++ [Char.ofNat 125]

def jsonDumpsList : PyList → List Char
  | .nil => []
  | .cons x .nil => jsonDumps x
  | .cons x (.cons y ys) => jsonDumps x ++ ',' :: ' ' :: jsonDumpsList (.cons y ys)

def jsonDumpsDict : PyDict → List Char
  | .nil => []
  | .cons k v .nil => jsonQuote k.data ++ ':' :: ' ' :: jsonDumps v
  | .cons k v (.cons k2 v2 rest) =>
    jsonQuote k.data ++ ':' :: ' ' :: jsonDumps v ++ ',' :: ' ' ::
      jsonDumpsDict (.cons k2 v2 rest)
end

/-- The canonical text form that `encrypt` actually encrypts: a `str` is
used as is, any other value is serialized with `json.dumps`
(src/main.py lines 103–104). -/
def canonicalForm : PyVal → String
  | .str s => s
  | v => ⟨jsonDumps v⟩

/-! ## Envelope encryption (`_fernet_from_pbkdf2`, `SimpleEncryptionManager`)

PBKDF2HMAC-SHA256 with 100000 iterations is deterministic in
`(master, salt)` and is idealized as collision-free, so the derived key is
modelled by the pair itself. -/

structure DerivedKey where
  master : List Nat
  salt : List Nat
deriving DecidableEq, Repr

/-- Models `_fernet_from_pbkdf2` (src/main.py lines 79–89): the Fernet
instance is determined exactly by the derived key. -/
def fernet_from_pbkdf2 (masterKey salt : List Nat) : DerivedKey :=
  ⟨masterKey, salt⟩

/-- Self-delimiting unary length code: `n` ones followed by a zero. -/
def unaryCode (n : Nat) : List Nat :=
  List.replicate n 1 ++ [0]

/-- Reads a unary length code: counts bytes up to the first zero. -/
def readUnary : List Nat → Option (Nat × List Nat)
  | [] => none
  | b :: rest =>
    if b = 0 then some (0, rest)
    else
      match readUnary rest with
      | some (n, r) => some (n + 1, r)
      | none => none

/-- Body of the symbolic Fernet token: an injective encoding of the key
and the plaintext. -/
def fernetBody (key : DerivedKey) (pt : List Nat) : List Nat :=
  unaryCode key.master.length ++ key.master ++ key.salt ++ pt

/-- Symbolic model of `Fernet(key).encrypt`: the token binds the key and
plaintext, and carries a checksum byte (sum mod 256) standing in for the
HMAC tag — it detects every single-byte modification. -/
def fernetEncrypt (key : DerivedKey) (pt : List Nat) : List Nat :=
  fernetBody key pt ++ [(fernetBody key pt).sum % 256]

/-- Symbolic model of `Fernet(key).decrypt`: verifies the checksum, parses
the embedded key, and compares it with the supplied key; any mismatch is
the `InvalidToken` failure, returned as `none`. -/
def fernetDecrypt (key : DerivedKey) (token : List Nat) : Option (List Nat) :=
  match token.getLast?, readUnary token.dropLast with
  | some chk, some (mlen, rest) =>
    if chk = token.dropLast.sum % 256 ∧ mlen + 16 ≤ rest.length ∧
        DerivedKey.mk (rest.take mlen) ((rest.drop mlen).take 16) = key then
      some ((rest.drop mlen).drop 16)
    else none
  | _, _ => none

/-- Failure modes of `SimpleEncryptionManager.decrypt`:
`integrityError` is `cryptography.fernet.InvalidToken` (the spec's
`IntegrityError`), `invalidHex` the `ValueError` of `bytes.fromhex`,
`unicodeError` the `UnicodeDecodeError` of `bytes.decode`. -/
inductive DecryptError where
  | invalidHex
  | integrityError
  | unicodeError
deriving DecidableEq, Repr

deriving instance DecidableEq for Except

/-- Result of `SimpleEncryptionManager.__init__`: the effective master key
string and whether the fallback warning was printed. -/
structure InitState where
  masterKey : String
  warned : Bool
deriving DecidableEq, Repr

namespace SimpleEncryptionManager

/-- Models `SimpleEncryptionManager.__init__` (src/main.py lines 93–100).
`urandom32` is the 32-byte draw of `os.urandom(32)`.  A raising
constructor would be `.error`; the code never raises: when the key is
missing or shorter than 32 characters it prints a warning and builds
`(master_key + os.urandom(32).hex())[:64]`. -/
def init (masterKey : String) (urandom32 : List Nat) : Except String InitState :=
  if masterKey = "" ∨ masterKey.length < 32 then
    .ok ⟨⟨(masterKey.data ++ bytesToHex urandom32).take 64⟩, true⟩
  else
    .ok ⟨masterKey, false⟩

/-- The raw blob `salt || token` built by `encrypt` (src/main.py lines
102–108) before hex serialization.  `salt` is the 16-byte draw of
`os.urandom(16)`. -/
def encryptBytes (masterKey : String) (salt : List Nat) (data : PyVal) : List Nat :=
  salt ++ fernetEncrypt (fernet_from_pbkdf2 (utf8Encode masterKey.data) salt)
    (utf8Encode (canonicalForm data).data)

/-- Models `SimpleEncryptionManager.encrypt`: serialize non-`str` data,
encrypt with a key derived from the master key and the fresh salt, and
return `(salt + token).hex()`. -/
def encrypt (masterKey : String) (salt : List Nat) (data : PyVal) : List Char :=
  bytesToHex (encryptBytes masterKey salt data)

/-- `decrypt` after `bytes.fromhex`: split `raw[:16]`/`raw[16:]`,
re-derive the key, authenticated-decrypt, decode UTF-8
(src/main.py lines 110–115). -/
def decryptBytes (masterKey : String) (raw : List Nat) : Except DecryptError String :=
  let salt := raw.take 16
  let token := raw.drop 16
  match fernetDecrypt (fernet_from_pbkdf2 (utf8Encode masterKey.data) salt) token with
  | none => .error .integrityError
  | some pt =>
    match utf8Decode pt with
    | none => .error .unicodeError
    | some cs => .ok ⟨cs⟩

/-- Models `SimpleEncryptionManager.decrypt` on the hex blob. -/
def decrypt (masterKey : String) (encryptedHex : List Char) : Except DecryptError String :=
  match hexToBytes encryptedHex with
  | none => .error .invalidHex
  | some raw => decryptBytes masterKey raw

end SimpleEncryptionManager

/-! ## Audit trail (`AuditLogger`, src/main.py lines 122–235)

The SQLite table `audit_logs` is modelled as the list of its rows in
insertion order.  `id` and `timestamp` are produced by the environment
(`uuid.uuid4()`, `now_utc_iso()`) and are therefore inputs of `log`.  The
`details` column stores the `json.dumps` text; `json.loads` on retrieval
round-trips it, so the payload is carried as the stored string. -/

structure AuditRecord where
  id : String
  timestamp : String
  user_id : Option String
  action : String
  object_type : Option String
  object_id : Option String
  details : String
deriving DecidableEq, Repr

/-- Lexicographic order on code points: SQLite's BINARY collation on the
`timestamp` TEXT column (UTF-8 byte order coincides with code-point
order). -/
def charListLe : List Char → List Char → Bool
  | [], _ => true
  | _ :: _, [] => false
  | a :: as, b :: bs =>
    if a.toNat < b.toNat then true
    else if b.toNat < a.toNat then false
    else charListLe as bs

/-- `ORDER BY timestamp` (ascending) comparison. -/
abbrev tsLe (a b : AuditRecord) : Prop :=
  charListLe a.timestamp.data b.timestamp.data = true

/-- `ORDER BY timestamp DESC` comparison. -/
abbrev tsGe (a b : AuditRecord) : Prop :=
  charListLe b.timestamp.data a.timestamp.data = true

namespace AuditLogger

/-- Models `AuditLogger.log`: a single atomic `INSERT` appending one row. -/
def log (db : List AuditRecord) (rec : AuditRecord) : List AuditRecord :=
  db ++ [rec]

/-- Models `AuditLogger.get_trail`:
`SELECT ... WHERE object_id = ? ORDER BY timestamp`.  A `WHERE` equality
never matches a NULL `object_id`. -/
def get_trail (db : List AuditRecord) (object_id : String) : List AuditRecord :=
  List.insertionSort tsLe (db.filter (fun r => decide (r.object_id = some object_id)))

/-- Models `AuditLogger.get_last`:
`SELECT ... ORDER BY timestamp DESC LIMIT ?`.  SQLite treats a negative
`LIMIT` as "no upper bound". -/
def get_last (db : List AuditRecord) (limit : Int) : List AuditRecord :=
  let sorted := List.insertionSort tsGe db
  if limit < 0 then sorted else sorted.take limit.toNat

end AuditLogger

/-- The operations the system performs on the `audit_logs` table.  The
repository contains exactly four SQL statements touching it:
`CREATE TABLE IF NOT EXISTS` (`_init_db`), one `INSERT` (`log`) and two
`SELECT`s (`get_trail`, `get_last`); there is no `UPDATE` or `DELETE`. -/
inductive AuditOp where
  | log (rec : AuditRecord)
  | get_trail (object_id : String)
  | get_last (limit : Int)
  | init_db

/-- State transition of the audit table under one operation: only `log`
writes; `CREATE TABLE IF NOT EXISTS` and `SELECT` leave the rows as they
are. -/
def AuditLogger.applyOp (db : List AuditRecord) : AuditOp → List AuditRecord
  | .log rec => AuditLogger.log db rec
  | .get_trail _ => db
  | .get_last _ => db
  | .init_db => db

/-! ## Rule-based analysis (`analyze_pdf_safety`, src/main.py lines 670–724) -/

/-- Python `str.lower()`, restricted to ASCII and the German letters that
occur in this code base's keyword tables. -/
def pyLowerChar (c : Char) : Char :=
  let n := c.toNat
  if 65 ≤ n ∧ n ≤ 90 then Char.ofNat (n + 32)
  else if n = 0xC4 then Char.ofNat 0xE4
  else if n = 0xD6 then Char.ofNat 0xF6
  else if n = 0xDC then Char.ofNat 0xFC
  else c

/-- Models `text.lower()`. -/
def pyLower (s : String) : String :=
  ⟨s.data.map pyLowerChar⟩

/-- Contiguous-substring test: Python's `needle in hay`. -/
def containsSub (needle : List Char) : List Char → Bool
  | [] => needle.isEmpty
  | c :: t => needle.isPrefixOf (c :: t) || containsSub needle t

/-- Python `k in lowered` on strings. -/
def strIn (needle hay : String) : Bool :=
  containsSub needle.data hay.data

/-- One entry of the `hazards` list built by `add_hazard`. -/
structure DetectedHazard where
  keyword : String
  category : String
  severity : ℚ
  recommendation : String
deriving DecidableEq

/-- `any(k in lowered for k in ks)`. -/
def keywordHit (lowered : String) (ks : List String) : Bool :=
  ks.any (fun k => strIn k lowered)

def chemKeywords : List String :=
  ["chemikalie", "lösemittel", "säure", "gefahrstoff", "trgs"]

def machineKeywords : List String :=
  ["maschine", "presse", "fräsmaschine", "säge", "bohrmaschine"]

def fallKeywords : List String :=
  ["sturz", "hinfallen", "absturz", "leiter", "gerüst"]

def noiseKeywords : List String :=
  ["lärm", "gehörschutz", "schallpegel"]

def stressKeywords : List String :=
  ["stress", "überlastung", "psychische", "burnout"]

def chemHazard : DetectedHazard :=
  ⟨"Chemikalien", "chemisch", 4/5,
    "Gefahrstoffunterweisung nach GefStoffV / TRGS durchführen; PSA, Lagerung, Kennzeichnung prüfen."⟩

def machineHazard : DetectedHazard :=
  ⟨"Maschinen", "mechanisch", 7/10,
    "Betriebsanweisungen für Maschinen erstellen/aktualisieren, Unterweisungen zu Quetsch- und Schnittgefahren."⟩

def fallHazard : DetectedHazard :=
  ⟨"Sturz / Absturz", "physisch", 3/4,
    "Unterweisung zu Stolper- und Absturzgefahren, Prüfung von Leitern/Gerüsten, Ordnung und Sauberkeit."⟩

def noiseHazard : DetectedHazard :=
  ⟨"Lärm", "physisch", 3/5,
    "Gehörschutzkonzept prüfen, Messungen dokumentieren, Unterweisung zu Lärmschutz."⟩

def stressHazard : DetectedHazard :=
  ⟨"Psychische Belastung", "psychisch", 1/2,
    "Maßnahmen zur Reduktion psychischer Belastungen prüfen (Arbeitsorganisation, Führung, Kommunikation)."⟩

/-- The fallback hazard appended when no keyword category matched
(src/main.py lines 711–715). -/
def fallbackHazard : DetectedHazard :=
  ⟨"allgemein", "unspezifisch", 3/10,
    "Dokument prüfen, ob Gefährdungsbeurteilung und Unterweisungsnachweise vorhanden sind."⟩

/-- The `hazards` list built by the five keyword checks
(src/main.py lines 686–710). -/
def baseHazards (lowered : String) : List DetectedHazard :=
  (if keywordHit lowered chemKeywords then [chemHazard] else []) ++
  (if keywordHit lowered machineKeywords then [machineHazard] else []) ++
  (if keywordHit lowered fallKeywords then [fallHazard] else []) ++
  (if keywordHit lowered noiseKeywords then [noiseHazard] else []) ++
  (if keywordHit lowered stressKeywords then [stressHazard] else [])

/-- The `hazards` list after the `if not hazards` fallback
(src/main.py lines 711–715). -/
def detectedHazards (lowered : String) : List DetectedHazard :=
  if baseHazards lowered = [] then [fallbackHazard] else baseHazards lowered

/-- Python `max(xs, default=d)`. -/
def maxOrDefault (d : ℚ) : List ℚ → ℚ
  | [] => d
  | x :: xs => xs.foldl max x

/-- The dictionary returned by `analyze_pdf_safety`. -/
structure SafetyAnalysis where
  hazards_detected : List DetectedHazard
  max_severity : ℚ
  suggested_training_topics : List String
  metadata_title : Option String
  metadata_author : Option String
deriving DecidableEq

/-- Models `analyze_pdf_safety` (src/main.py lines 670–724).  A pure
function of the document text and metadata: the source makes no random,
time-dependent or locale-dependent calls.  Severities are the exact
rationals behind the float literals 0.8, 0.7, 0.75, 0.6, 0.5, 0.3. -/
def analyze_pdf_safety (text : String) (metadata : List (String × String)) :
    SafetyAnalysis :=
  let lowered := pyLower text
  let hazards := detectedHazards lowered
  { hazards_detected := hazards
    max_severity := maxOrDefault 0 (hazards.map (·.severity))
    suggested_training_topics := hazards.map (·.category)
    metadata_title := metadata.lookup "title"
    metadata_author := metadata.lookup "author" }

/-! ## Template registry (spec §4.3)

No template-registry code exists in `src/main.py`; the definitions below
are modelled from the spec. -/

inductive FieldType where
  | text
  | multilineText
  | number
  | date
  | boolean
  | singleChoice
deriving DecidableEq, Repr

/-- Modelled from the spec: `ExtractionHint` of §3. -/
structure ExtractionHint where
  keywords : List String
  regex : Option String
  page : Option Nat
deriving DecidableEq

/-- Modelled from the spec: `Field` of §3. -/
structure TemplateField where
  id : String
  label : String
  type : FieldType
  required : Bool
  section_id : String
  choices : List String
  default : Option String
  extraction_hint : Option ExtractionHint
deriving DecidableEq

/-- Modelled from the spec: `Section` of §3. -/
structure TemplateSection where
  id : String
  title : String
deriving DecidableEq

/-- Modelled from the spec: `Template` of §3. -/
structure Template where
  id : String
  name : String
  language : String
  sections : List TemplateSection
  fields : List TemplateField
deriving DecidableEq

/-- Check (a) of `validate`: every `Field.section_id` resolves to a
declared `Section.id`. -/
def sectionRefsValid (t : Template) : Bool :=
  t.fields.all (fun f => t.sections.any (fun s => s.id == f.section_id))

/-- Check (b) of `validate`: `single-choice` implies non-empty `choices`. -/
def choicesValid (t : Template) : Bool :=
  t.fields.all (fun f => f.type != .singleChoice || !f.choices.isEmpty)

/-- Check (c) of `validate`: `Field.id` and `Section.id` unique within the
template. -/
def idsUnique (t : Template) : Bool :=
  decide (t.fields.map TemplateField.id).Nodup &&
    decide (t.sections.map TemplateSection.id).Nodup

/-- Modelled from the spec: `validate(template) -> ok | ValidationError`
runs checks (a), (b), (c) of §4.3. -/
def validate (t : Template) : Except String Unit :=
  if !sectionRefsValid t then
    .error "ValidationError: a field section_id does not resolve to a declared Section.id"
  else if !choicesValid t then
    .error "ValidationError: a single-choice field has empty choices"
  else if !idsUnique t then
    .error "ValidationError: duplicate field or section ids"
  else
    .ok ()

/-- Modelled from the spec: `save(template)` validates, then persists by
`id` (upsert).  On a `ValidationError` nothing is persisted. -/
def save (registry : List Template) (t : Template) : Except String (List Template) :=
  match validate t with
  | .error e => .error e
  | .ok _ => .ok (registry.filter (fun u => u.id != t.id) ++ [t])

/-! ## Round-trip lemmas for the serialization layers -/

theorem hexVal_hexDigit : ∀ n : Fin 16, hexDigitVal (hexDigitChar n.val) = some n.val := by
  decide

theorem hexToBytes_byteToHex (b : Nat) (hb : b < 256) (cs : List Char) :
    hexToBytes (byteToHex b ++ cs) = (hexToBytes cs).map (fun bs => b :: bs) := by
  have h1 : hexDigitVal (hexDigitChar (b / 16)) = some (b / 16) :=
    hexVal_hexDigit ⟨b / 16, by omega⟩
  have h2 : hexDigitVal (hexDigitChar (b % 16)) = some (b % 16) :=
    hexVal_hexDigit ⟨b % 16, by omega⟩
  show hexToBytes (hexDigitChar (b / 16) :: hexDigitChar (b % 16) :: cs) = _
  rw [hexToBytes, h1, h2]
  cases hcs : hexToBytes cs with
  | none => rfl
  | some bs => simp [Nat.div_add_mod]

theorem hexToBytes_bytesToHex (bs : List Nat) (h : ∀ b ∈ bs, b < 256) :
    hexToBytes (bytesToHex bs) = some bs := by
  induction bs with
  | nil => rfl
  | cons b rest ih =>
    rw [bytesToHex, hexToBytes_byteToHex b (h b (by simp)),
      ih (fun x hx => h x (by simp [hx]))]
    rfl

theorem bytesToHex_injOn (bs1 bs2 : List Nat) (h1 : ∀ b ∈ bs1, b < 256)
    (h2 : ∀ b ∈ bs2, b < 256) (heq : bytesToHex bs1 = bytesToHex bs2) : bs1 = bs2 := by
  have := hexToBytes_bytesToHex bs1 h1
  rw [heq, hexToBytes_bytesToHex bs2 h2] at this
  exact (Option.some.injEq _ _ ▸ this).symm

theorem bytesToHex_length (bs : List Nat) : (bytesToHex bs).length = 2 * bs.length := by
  induction bs with
  | nil => rfl
  | cons b rest ih => simp [bytesToHex, byteToHex, ih]; ring

theorem charValidNat (c : Char) :
    c.toNat < 0xd800 ∨ (0xdfff < c.toNat ∧ c.toNat < 0x110000) := by
  rcases c.valid with h | ⟨ha, hb⟩
  · exact Or.inl h
  · exact Or.inr ⟨ha, hb⟩

theorem utf8EncodeNat_lt (n : Nat) (hn : n < 0x110000) :
    ∀ b ∈ utf8EncodeNat n, b < 256 := by
  intro b hb
  unfold utf8EncodeNat at hb
  split_ifs at hb <;>
    simp only [List.mem_cons, List.mem_singleton, List.not_mem_nil, or_false] at hb <;>
    omega

theorem utf8Encode_lt (s : List Char) : ∀ b ∈ utf8Encode s, b < 256 := by
  induction s with
  | nil => intro b hb; simp [utf8Encode] at hb
  | cons c cs ih =>
    intro b hb
    rw [utf8Encode, List.mem_append] at hb
    rcases hb with hb | hb
    · rcases charValidNat c with h | ⟨_, h2⟩
      · exact utf8EncodeNat_lt c.toNat (by omega) b hb
      · exact utf8EncodeNat_lt c.toNat h2 b hb
    · exact ih b hb

theorem utf8DecodeAux_encodeNat (c : Char) (bs : List Nat) :
    utf8DecodeAux (utf8EncodeNat c.toNat ++ bs) none =
      (utf8DecodeAux bs none).map (fun cs => c :: cs) := by
  have hv := charValidNat c
  have hofn : Char.ofNat c.toNat = c := Char.ofNat_toNat c
  by_cases h1 : c.toNat < 0x80
  · rw [show utf8EncodeNat c.toNat = [c.toNat] from by rw [utf8EncodeNat, if_pos h1]]
    show utf8DecodeAux (c.toNat :: bs) none = _
    rw [utf8DecodeAux, if_pos h1, hofn]
  · by_cases h2 : c.toNat < 0x800
    · rw [show utf8EncodeNat c.toNat = [0xC0 + c.toNat / 64, 0x80 + c.toNat % 64] from by
        rw [utf8EncodeNat, if_neg h1, if_pos h2]]
      show utf8DecodeAux ((0xC0 + c.toNat / 64) :: (0x80 + c.toNat % 64) :: bs) none = _
      rw [utf8DecodeAux, if_neg (by omega), if_neg (by omega), if_pos (by omega)]
      rw [utf8DecodeAux, if_pos ⟨by omega, by omega⟩, if_pos (Or.inl ⟨rfl, by omega⟩)]
      rw [show (0xC0 + c.toNat / 64 - 0xC0) * 64 + (0x80 + c.toNat % 64 - 0x80) = c.toNat by
        omega, hofn]
    · by_cases h3 : c.toNat < 0x10000
      · rw [show utf8EncodeNat c.toNat =
            [0xE0 + c.toNat / 4096, 0x80 + c.toNat / 64 % 64, 0x80 + c.toNat % 64] from by
          rw [utf8EncodeNat, if_neg h1, if_neg h2, if_pos h3]]
        show utf8DecodeAux ((0xE0 + c.toNat / 4096) :: (0x80 + c.toNat / 64 % 64) ::
          (0x80 + c.toNat % 64) :: bs) none = _
        rw [utf8DecodeAux, if_neg (by omega), if_neg (by omega), if_neg (by omega),
          if_pos (by omega)]
        rw [utf8DecodeAux, if_pos ⟨by omega, by omega⟩]
        rw [utf8DecodeAux, if_pos ⟨by omega, by omega⟩,
          if_pos (Or.inr (Or.inl ⟨rfl, by omega, by
            rcases hv with h | ⟨ha, hb⟩ <;> omega⟩))]
        rw [show ((0xE0 + c.toNat / 4096 - 0xE0) * 64 + (0x80 + c.toNat / 64 % 64 - 0x80)) * 64 +
            (0x80 + c.toNat % 64 - 0x80) = c.toNat by omega, hofn]
      · rw [show utf8EncodeNat c.toNat =
            [0xF0 + c.toNat / 262144, 0x80 + c.toNat / 4096 % 64, 0x80 + c.toNat / 64 % 64,
              0x80 + c.toNat % 64] from by
          rw [utf8EncodeNat, if_neg h1, if_neg h2, if_neg h3]]
        show utf8DecodeAux ((0xF0 + c.toNat / 262144) :: (0x80 + c.toNat / 4096 % 64) ::
          (0x80 + c.toNat / 64 % 64) :: (0x80 + c.toNat % 64) :: bs) none = _
        rw [utf8DecodeAux, if_neg (by omega), if_neg (by omega), if_neg (by omega),
          if_neg (by omega), if_pos (by rcases hv with h | ⟨ha, hb⟩ <;> omega)]
        rw [utf8DecodeAux, if_pos ⟨by omega, by omega⟩]
        rw [utf8DecodeAux, if_pos ⟨by omega, by omega⟩]
        rw [utf8DecodeAux, if_pos ⟨by omega, by omega⟩,
          if_pos (Or.inr (Or.inr ⟨rfl, by omega, by
            rcases hv with h | ⟨ha, hb⟩ <;> omega⟩))]
        rw [show (((0xF0 + c.toNat / 262144 - 0xF0) * 64 + (0x80 + c.toNat / 4096 % 64 - 0x80)) *
            64 + (0x80 + c.toNat / 64 % 64 - 0x80)) * 64 + (0x80 + c.toNat % 64 - 0x80) =
            c.toNat by omega, hofn]

theorem utf8Decode_utf8Encode (s : List Char) : utf8Decode (utf8Encode s) = some s := by
  induction s with
  | nil => rfl
  | cons c cs ih =>
    show utf8DecodeAux (utf8Encode (c :: cs)) none = _
    rw [utf8Encode, utf8DecodeAux_encodeNat]
    show (utf8Decode (utf8Encode cs)).map (fun l => c :: l) = _
    rw [ih]
    rfl

theorem utf8Encode_injective (s1 s2 : List Char) (h : utf8Encode s1 = utf8Encode s2) :
    s1 = s2 := by
  have h1 := utf8Decode_utf8Encode s1
  rw [h, utf8Decode_utf8Encode s2] at h1
  exact (Option.some.injEq _ _ ▸ h1).symm

/-! ## Lemmas about the symbolic Fernet layer -/

theorem readUnary_unaryCode (n : Nat) (rest : List Nat) :
    readUnary (unaryCode n ++ rest) = some (n, rest) := by
  induction n with
  | zero => rfl
  | succ k ih =>
    have h : unaryCode (k + 1) ++ rest = 1 :: (unaryCode k ++ rest) := by
      simp [unaryCode, List.replicate_succ]
    rw [h, readUnary, if_neg (by decide), ih]

theorem unaryCode_lt (n : Nat) : ∀ b ∈ unaryCode n, b < 256 := by
  intro b hb
  rw [unaryCode, List.mem_append] at hb
  rcases hb with hb | hb
  · rw [List.eq_of_mem_replicate hb]
    omega
  · rw [List.mem_singleton.mp hb]
    omega

theorem fernetBody_lt (key : DerivedKey) (pt : List Nat)
    (hm : ∀ b ∈ key.master, b < 256) (hs : ∀ b ∈ key.salt, b < 256)
    (hp : ∀ b ∈ pt, b < 256) : ∀ b ∈ fernetBody key pt, b < 256 := by
  intro b hb
  rw [fernetBody, List.append_assoc, List.append_assoc, List.mem_append] at hb
  rcases hb with hb | hb
  · exact unaryCode_lt _ b hb
  · rw [List.mem_append] at hb
    rcases hb with hb | hb
    · exact hm b hb
    · rw [List.mem_append] at hb
      rcases hb with hb | hb
      · exact hs b hb
      · exact hp b hb

theorem fernetEncrypt_lt (key : DerivedKey) (pt : List Nat)
    (hm : ∀ b ∈ key.master, b < 256) (hs : ∀ b ∈ key.salt, b < 256)
    (hp : ∀ b ∈ pt, b < 256) : ∀ b ∈ fernetEncrypt key pt, b < 256 := by
  intro b hb
  rw [fernetEncrypt, List.mem_append] at hb
  rcases hb with hb | hb
  · exact fernetBody_lt key pt hm hs hp b hb
  · rw [List.mem_singleton.mp hb]
    exact Nat.mod_lt _ (by omega)

theorem fernetDecrypt_fernetEncrypt (m s pt : List Nat) (hs : s.length = 16)
    (key2 : DerivedKey) :
    fernetDecrypt key2 (fernetEncrypt ⟨m, s⟩ pt) =
      if DerivedKey.mk m s = key2 then some pt else none := by
  have hbody : fernetBody ⟨m, s⟩ pt = unaryCode m.length ++ (m ++ (s ++ pt)) := by
    simp [fernetBody, List.append_assoc]
  have hread : readUnary (fernetEncrypt ⟨m, s⟩ pt).dropLast =
      some (m.length, m ++ (s ++ pt)) := by
    rw [fernetEncrypt, List.dropLast_concat, hbody, readUnary_unaryCode]
  have hlast : (fernetEncrypt ⟨m, s⟩ pt).getLast? = some ((fernetBody ⟨m, s⟩ pt).sum % 256) :=
    List.getLast?_concat _
  have hdrop : (fernetEncrypt ⟨m, s⟩ pt).dropLast = fernetBody ⟨m, s⟩ pt := by
    rw [fernetEncrypt, List.dropLast_concat]
  unfold fernetDecrypt
  rw [hlast, hread, hdrop]
  dsimp only []
  by_cases hk : DerivedKey.mk m s = key2
  · rw [if_pos ⟨rfl, by simp only [List.length_append, hs]; omega, by
      rw [List.take_left, List.drop_left, ← hs, List.take_left]
      exact hk⟩, if_pos hk]
    rw [List.drop_left, ← hs, List.drop_left]
  · rw [if_neg (fun hc => by
      have hc3 := hc.2.2
      rw [List.take_left, List.drop_left, ← hs, List.take_left] at hc3
      exact hk hc3), if_neg hk]

theorem sum_set_get (l : List Nat) (j : Nat) (h : j < l.length) (v : Nat) :
    (l.set j v).sum + l.get ⟨j, h⟩ = l.sum + v := by
  induction l generalizing j with
  | nil => exact absurd h (by simp)
  | cons a t ih =>
    cases j with
    | zero => simp [List.sum_cons]; omega
    | succ k =>
      simp only [List.set, List.sum_cons, List.get_cons_succ]
      have := ih k (by simpa using h)
      omega

theorem fernetDecrypt_set (key : DerivedKey) (pt : List Nat) (j v o : Nat)
    (hb : ∀ b ∈ fernetEncrypt key pt, b < 256)
    (ho : (fernetEncrypt key pt).get? j = some o) (hv : v < 256) (hneo : v ≠ o)
    (key2 : DerivedKey) :
    fernetDecrypt key2 ((fernetEncrypt key pt).set j v) = none := by
  obtain ⟨hj, hgt⟩ := List.get?_eq_some.mp ho
  have hne : v ≠ (fernetEncrypt key pt).get ⟨j, hj⟩ := by rw [hgt]; exact hneo
  have hlen : (fernetEncrypt key pt).length = (fernetBody key pt).length + 1 := by
    simp [fernetEncrypt]
  rcases (by omega : j < (fernetBody key pt).length ∨ j = (fernetBody key pt).length) with
    hj1 | hj1
  · have hset : (fernetEncrypt key pt).set j v =
        (fernetBody key pt).set j v ++ [(fernetBody key pt).sum % 256] := by
      rw [fernetEncrypt, List.set_append_left _ _ hj1]
    have hold : (fernetEncrypt key pt).get ⟨j, hj⟩ = (fernetBody key pt).get ⟨j, hj1⟩ := by
      show (fernetBody key pt ++ [(fernetBody key pt).sum % 256]).get ⟨j, hj⟩ = _
      rw [List.get_eq_getElem, List.get_eq_getElem]
      exact List.getElem_append_left hj1
    have holdlt : (fernetBody key pt).get ⟨j, hj1⟩ < 256 := by
      apply hb
      rw [fernetEncrypt, List.mem_append]
      exact Or.inl (List.get_mem _ _ _)
    have hsum := sum_set_get (fernetBody key pt) j hj1 v
    rw [hset]
    unfold fernetDecrypt
    rw [List.getLast?_concat, List.dropLast_concat]
    cases hru : readUnary ((fernetBody key pt).set j v) with
    | none => rfl
    | some p =>
      obtain ⟨mlen, rest⟩ := p
      refine if_neg (fun hc => ?_)
      have hchk := hc.1
      rw [hold] at hne
      omega
  · have hset : (fernetEncrypt key pt).set j v = fernetBody key pt ++ [v] := by
      rw [fernetEncrypt, List.set_append_right _ _ (Nat.le_of_eq hj1.symm)]
      rw [hj1, Nat.sub_self]
      rfl
    have hold : (fernetEncrypt key pt).get ⟨j, hj⟩ = (fernetBody key pt).sum % 256 := by
      show (fernetBody key pt ++ [(fernetBody key pt).sum % 256]).get ⟨j, hj⟩ = _
      rw [List.get_eq_getElem]
      exact List.getElem_concat_length _ _ _ hj1 _
    rw [hset]
    unfold fernetDecrypt
    rw [List.getLast?_concat, List.dropLast_concat]
    cases hru : readUnary (fernetBody key pt) with
    | none => rfl
    | some p =>
      obtain ⟨mlen, rest⟩ := p
      refine if_neg (fun hc => ?_)
      rw [hold] at hne
      exact hne hc.1

/-! ## Lemmas about `SimpleEncryptionManager` -/

theorem encryptBytes_take (masterKey : String) (salt : List Nat) (data : PyVal)
    (hlen : salt.length = 16) :
    (SimpleEncryptionManager.encryptBytes masterKey salt data).take 16 = salt := by
  rw [SimpleEncryptionManager.encryptBytes, ← hlen, List.take_left]

theorem encryptBytes_drop (masterKey : String) (salt : List Nat) (data : PyVal)
    (hlen : salt.length = 16) :
    (SimpleEncryptionManager.encryptBytes masterKey salt data).drop 16 =
      fernetEncrypt (fernet_from_pbkdf2 (utf8Encode masterKey.data) salt)
        (utf8Encode (canonicalForm data).data) := by
  rw [SimpleEncryptionManager.encryptBytes, ← hlen, List.drop_left]

theorem encryptBytes_lt (masterKey : String) (salt : List Nat) (data : PyVal)
    (hsv : ∀ b ∈ salt, b < 256) :
    ∀ b ∈ SimpleEncryptionManager.encryptBytes masterKey salt data, b < 256 := by
  intro b hb
  rw [SimpleEncryptionManager.encryptBytes, List.mem_append] at hb
  rcases hb with hb | hb
  · exact hsv b hb
  · exact fernetEncrypt_lt _ _ (utf8Encode_lt _) hsv (utf8Encode_lt _) b hb

theorem decryptBytes_encryptBytes (mk1 mk2 : String) (salt : List Nat) (data : PyVal)
    (hlen : salt.length = 16) :
    SimpleEncryptionManager.decryptBytes mk2
        (SimpleEncryptionManager.encryptBytes mk1 salt data) =
      if mk1 = mk2 then .ok (canonicalForm data) else .error .integrityError := by
  unfold SimpleEncryptionManager.decryptBytes
  dsimp only []
  rw [encryptBytes_take mk1 salt data hlen, encryptBytes_drop mk1 salt data hlen]
  rw [show fernet_from_pbkdf2 (utf8Encode mk2.data) salt =
    DerivedKey.mk (utf8Encode mk2.data) salt from rfl]
  rw [show fernet_from_pbkdf2 (utf8Encode mk1.data) salt =
    DerivedKey.mk (utf8Encode mk1.data) salt from rfl]
  rw [fernetDecrypt_fernetEncrypt _ _ _ hlen]
  by_cases hm : mk1 = mk2
  · subst hm
    rw [if_pos rfl, if_pos rfl]
    dsimp only []
    rw [utf8Decode_utf8Encode]
  · rw [if_neg (fun heq => by
      have hdata := (DerivedKey.mk.injEq _ _ _ _ ▸ heq).1
      exact hm (congrArg String.mk (utf8Encode_injective _ _ hdata))), if_neg hm]

/-! ## Lemmas about the audit-trail ordering -/

theorem charListLe_total : ∀ as bs : List Char,
    charListLe as bs = true ∨ charListLe bs as = true := by
  intro as
  induction as with
  | nil => intro bs; exact Or.inl rfl
  | cons a atl ih =>
    intro bs
    cases bs with
    | nil => exact Or.inr rfl
    | cons b btl =>
      by_cases h1 : a.toNat < b.toNat
      · left
        rw [charListLe, if_pos h1]
      · by_cases h2 : b.toNat < a.toNat
        · right
          rw [charListLe, if_pos h2]
        · rcases ih btl with h | h
          · left
            rw [charListLe, if_neg h1, if_neg h2]
            exact h
          · right
            rw [charListLe, if_neg h2, if_neg h1]
            exact h

theorem charListLe_trans : ∀ as bs cs : List Char, charListLe as bs = true →
    charListLe bs cs = true → charListLe as cs = true := by
  intro as
  induction as with
  | nil => intro bs cs _ _; rfl
  | cons a atl ih =>
    intro bs cs hab hbc
    cases bs with
    | nil => simp [charListLe] at hab
    | cons b btl =>
      cases cs with
      | nil => simp [charListLe] at hbc
      | cons c ctl =>
        rw [charListLe] at hab hbc ⊢
        by_cases hab1 : a.toNat < b.toNat
        · by_cases hbc1 : b.toNat < c.toNat
          · rw [if_pos (by omega)]
          · by_cases hbc2 : c.toNat < b.toNat
            · rw [if_neg hbc1, if_pos hbc2] at hbc
              simp at hbc
            · rw [if_pos (by omega)]
        · by_cases hab2 : b.toNat < a.toNat
          · rw [if_neg hab1, if_pos hab2] at hab
            simp at hab
          · by_cases hbc1 : b.toNat < c.toNat
            · rw [if_pos (by omega)]
            · by_cases hbc2 : c.toNat < b.toNat
              · rw [if_neg hbc1, if_pos hbc2] at hbc
                simp at hbc
              · rw [if_neg hab1, if_neg hab2] at hab
                rw [if_neg hbc1, if_neg hbc2] at hbc
                rw [if_neg (by omega), if_neg (by omega)]
                exact ih btl ctl hab hbc

/-! ## Lemmas about the hazard analysis -/

theorem le_foldl_max (l : List ℚ) : ∀ a b : ℚ, a ≤ b → a ≤ l.foldl max b := by
  induction l with
  | nil => intro a b h; exact h
  | cons x t ih => intro a b h; exact ih a (max b x) (le_trans h (le_max_left b x))

theorem maxOrDefault_ge (d : ℚ) (l : List ℚ) (hne : l ≠ []) (a : ℚ)
    (ha : ∀ x ∈ l, a ≤ x) : a ≤ maxOrDefault d l := by
  cases l with
  | nil => exact absurd rfl hne
  | cons x t => exact le_foldl_max t a x (ha x (by simp))

theorem detectedHazards_ne_nil (lowered : String) : detectedHazards lowered ≠ [] := by
  unfold detectedHazards
  split
  · simp
  · assumption

theorem baseHazards_severity (lowered : String) :
    ∀ h ∈ baseHazards lowered, 3/10 ≤ h.severity := by
  intro h hmem
  unfold baseHazards at hmem
  simp only [List.mem_append] at hmem
  rcases hmem with ((((h1 | h1) | h1) | h1) | h1) <;>
    · split at h1
      · rw [List.mem_singleton.mp h1]
        norm_num [chemHazard, machineHazard, fallHazard, noiseHazard, stressHazard]
      · simp at h1

theorem detectedHazards_severity (lowered : String) :
    ∀ h ∈ detectedHazards lowered, 3/10 ≤ h.severity := by
  intro h hmem
  unfold detectedHazards at hmem
  split at hmem
  · rw [List.mem_singleton.mp hmem]
    norm_num [fallbackHazard]
  · exact baseHazards_severity lowered h hmem

/-! ## Claim theorems -/

/-- C1: for every plaintext `p`, including non-string structured input,
decrypting the blob produced by encrypting `p` (with the 16 fresh random
bytes drawn by `os.urandom(16)` as the salt) returns the canonical text
form of `p`: `p` itself for a string, its `json.dumps` serialization
otherwise. -/
theorem C1_round_trip (masterKey : String) (salt : List Nat) (p : PyVal)
    (hlen : salt.length = 16) (hval : ∀ b ∈ salt, b < 256) :
    SimpleEncryptionManager.decrypt masterKey
        (SimpleEncryptionManager.encrypt masterKey salt p) =
      .ok (canonicalForm p) := by
  unfold SimpleEncryptionManager.decrypt SimpleEncryptionManager.encrypt
  rw [hexToBytes_bytesToHex _ (encryptBytes_lt masterKey salt p hval)]
  dsimp only []
  rw [decryptBytes_encryptBytes _ _ _ _ hlen, if_pos rfl]

/-- Witness for C1 at a concrete non-string input: decrypting the
encryption of the integer `5` yields the string `"5"`. -/
theorem C1_round_trip_witness :
    SimpleEncryptionManager.decrypt "unit-test-master-key"
        (SimpleEncryptionManager.encrypt "unit-test-master-key"
          (List.replicate 16 7) (.int 5)) = .ok "5" := by
  have h := C1_round_trip "unit-test-master-key" (List.replicate 16 7) (.int 5)
    (by decide) (by decide)
  exact h.trans (by decide)

/-- C2: changing any single byte of a produced blob to a different byte
value makes `decrypt` fail with the integrity failure
(`cryptography.fernet.InvalidToken`, the spec's `IntegrityError`), and
decrypting with a wrong master secret fails the same way; `decrypt`
never silently returns corrupted or wrong plaintext. -/
theorem C2_tamper_detection (masterKey : String) (salt : List Nat) (p : PyVal)
    (hlen : salt.length = 16) (hval : ∀ b ∈ salt, b < 256) :
    (∀ i v o : Nat,
      (SimpleEncryptionManager.encryptBytes masterKey salt p).get? i = some o →
      v < 256 → v ≠ o →
      SimpleEncryptionManager.decrypt masterKey
          (bytesToHex ((SimpleEncryptionManager.encryptBytes masterKey salt p).set i v)) =
        .error .integrityError) ∧
    (∀ masterKey2 : String, masterKey2 ≠ masterKey →
      SimpleEncryptionManager.decrypt masterKey2
          (SimpleEncryptionManager.encrypt masterKey salt p) =
        .error .integrityError) := by
  constructor
  · intro i v o ho hv hneo
    obtain ⟨hi, -⟩ := List.get?_eq_some.mp ho
    have ho2 : (salt ++ fernetEncrypt (fernet_from_pbkdf2 (utf8Encode masterKey.data) salt)
        (utf8Encode (canonicalForm p).data)).get? i = some o := ho
    have hvalid : ∀ b ∈ (SimpleEncryptionManager.encryptBytes masterKey salt p).set i v,
        b < 256 := by
      intro b hb
      rcases List.mem_or_eq_of_mem_set hb with hb | hb
      · exact encryptBytes_lt masterKey salt p hval b hb
      · omega
    unfold SimpleEncryptionManager.decrypt
    rw [hexToBytes_bytesToHex _ hvalid]
    dsimp only []
    by_cases hi16 : i < 16
    · have hisalt : i < salt.length := by omega
      rw [List.get?_eq_getElem?, List.getElem?_append_left hisalt,
        ← List.get?_eq_getElem?] at ho2
      have hset : (SimpleEncryptionManager.encryptBytes masterKey salt p).set i v =
          salt.set i v ++ fernetEncrypt (fernet_from_pbkdf2 (utf8Encode masterKey.data) salt)
            (utf8Encode (canonicalForm p).data) := by
        show (salt ++ _).set i v = _
        rw [List.set_append_left _ _ hisalt]
      have hlen2 : (salt.set i v).length = 16 := by rw [List.length_set]; exact hlen
      rw [hset]
      unfold SimpleEncryptionManager.decryptBytes
      dsimp only []
      rw [show (salt.set i v ++ fernetEncrypt (fernet_from_pbkdf2 (utf8Encode masterKey.data)
          salt) (utf8Encode (canonicalForm p).data)).take 16 = salt.set i v from by
        rw [← hlen2, List.take_left]]
      rw [show (salt.set i v ++ fernetEncrypt (fernet_from_pbkdf2 (utf8Encode masterKey.data)
          salt) (utf8Encode (canonicalForm p).data)).drop 16 =
          fernetEncrypt (fernet_from_pbkdf2 (utf8Encode masterKey.data) salt)
            (utf8Encode (canonicalForm p).data) from by
        rw [← hlen2, List.drop_left]]
      rw [show fernet_from_pbkdf2 (utf8Encode masterKey.data) (salt.set i v) =
        DerivedKey.mk (utf8Encode masterKey.data) (salt.set i v) from rfl]
      rw [show fernet_from_pbkdf2 (utf8Encode masterKey.data) salt =
        DerivedKey.mk (utf8Encode masterKey.data) salt from rfl]
      rw [fernetDecrypt_fernetEncrypt _ _ _ hlen]
      rw [if_neg (fun heq => by
        have hsalt := (DerivedKey.mk.injEq _ _ _ _ ▸ heq).2
        have h3 : salt.get? i = (salt.set i v).get? i := by rw [← hsalt]
        rw [ho2] at h3
        rw [show (salt.set i v).get? i = some v from by
          rw [List.get?_eq_getElem?]
          exact List.getElem?_set_self hisalt] at h3
        exact hneo (Option.some.injEq _ _ ▸ h3).symm)]
    · rw [List.get?_eq_getElem?,
        List.getElem?_append_right (by omega : salt.length ≤ i), hlen,
        ← List.get?_eq_getElem?] at ho2
      have hset : (SimpleEncryptionManager.encryptBytes masterKey salt p).set i v =
          salt ++ (fernetEncrypt (fernet_from_pbkdf2 (utf8Encode masterKey.data) salt)
            (utf8Encode (canonicalForm p).data)).set (i - 16) v := by
        show (salt ++ _).set i v = _
        rw [List.set_append_right _ _ (by omega : salt.length ≤ i), hlen]
      rw [hset]
      unfold SimpleEncryptionManager.decryptBytes
      dsimp only []
      rw [show (salt ++ (fernetEncrypt (fernet_from_pbkdf2 (utf8Encode masterKey.data) salt)
          (utf8Encode (canonicalForm p).data)).set (i - 16) v).take 16 = salt from by
        rw [← hlen, List.take_left]]
      rw [show (salt ++ (fernetEncrypt (fernet_from_pbkdf2 (utf8Encode masterKey.data) salt)
          (utf8Encode (canonicalForm p).data)).set (i - 16) v).drop 16 =
          (fernetEncrypt (fernet_from_pbkdf2 (utf8Encode masterKey.data) salt)
            (utf8Encode (canonicalForm p).data)).set (i - 16) v from by
        rw [← hlen, List.drop_left]]
      rw [fernetDecrypt_set _ _ _ _ _
        (fernetEncrypt_lt _ _ (utf8Encode_lt _) hval (utf8Encode_lt _)) ho2 hv hneo _]
  · intro masterKey2 hne2
    unfold SimpleEncryptionManager.decrypt SimpleEncryptionManager.encrypt
    rw [hexToBytes_bytesToHex _ (encryptBytes_lt masterKey salt p hval)]
    dsimp only []
    rw [decryptBytes_encryptBytes _ _ _ _ hlen, if_neg (fun h => hne2 h.symm)]

/-- Witness for C2: flipping blob byte 0 (a salt byte) of a concrete
encryption, and decrypting a concrete blob with a wrong master secret,
both fail with the integrity error. -/
theorem C2_tamper_detection_witness :
    SimpleEncryptionManager.decrypt "unit-test-master-key"
        (bytesToHex ((SimpleEncryptionManager.encryptBytes "unit-test-master-key"
          (List.replicate 16 7) (.str "a")).set 0 8)) = .error .integrityError ∧
    SimpleEncryptionManager.decrypt "other-master-key"
        (SimpleEncryptionManager.encrypt "unit-test-master-key" (List.replicate 16 7)
          (.str "a")) = .error .integrityError := by
  have h := C2_tamper_detection "unit-test-master-key" (List.replicate 16 7) (.str "a")
    (by decide) (by decide)
  exact ⟨h.1 0 8 7 (by decide) (by decide) (by decide), h.2 "other-master-key" (by decide)⟩

/-- C3: for a fixed plaintext, two encryption calls whose fresh random
16-byte salts differ produce different blobs (the salt is the 16-byte
prefix of the blob, so distinct salts force distinct hex outputs). -/
theorem C3_fresh_salt_nondeterminism (masterKey : String) (p : PyVal) (s1 s2 : List Nat)
    (h1 : s1.length = 16) (h2 : s2.length = 16) (hv1 : ∀ b ∈ s1, b < 256)
    (hv2 : ∀ b ∈ s2, b < 256) (hne : s1 ≠ s2) :
    SimpleEncryptionManager.encrypt masterKey s1 p ≠
      SimpleEncryptionManager.encrypt masterKey s2 p := by
  intro heq
  apply hne
  have hb := bytesToHex_injOn _ _ (encryptBytes_lt masterKey s1 p hv1)
    (encryptBytes_lt masterKey s2 p hv2) heq
  have hc := congrArg (List.take 16) hb
  rwa [encryptBytes_take _ _ _ h1, encryptBytes_take _ _ _ h2] at hc

/-- Witness for C3 at two concrete distinct salts. -/
theorem C3_fresh_salt_nondeterminism_witness :
    SimpleEncryptionManager.encrypt "unit-test-master-key" (List.replicate 16 0) (.str "x") ≠
      SimpleEncryptionManager.encrypt "unit-test-master-key" (List.replicate 16 1) (.str "x") :=
  C3_fresh_salt_nondeterminism "unit-test-master-key" (.str "x") _ _ (by decide) (by decide)
    (by decide) (by decide) (by decide)

/-- C4 counterexample: with the master secret absent (empty string), the
constructor does not refuse to start — it returns a working manager
(here with `os.urandom(32)` drawn as 32 zero bytes), carrying the
fallback key of 64 `'0'` characters and the printed-warning flag. -/
theorem C4_counterexample :
    SimpleEncryptionManager.init "" (List.replicate 32 0) =
      .ok ⟨⟨List.replicate 64 '0'⟩, true⟩ := by
  decide

/-- C4 amended: if the master secret is absent or shorter than 32
characters, the service does not fail fast; it prints a warning and
starts with the fallback key `(master_key + os.urandom(32).hex())[:64]`,
which is 64 characters long. -/
theorem C4_fallback_key (masterKey : String) (urandom32 : List Nat)
    (hshort : masterKey = "" ∨ masterKey.length < 32) (hlen : urandom32.length = 32) :
    SimpleEncryptionManager.init masterKey urandom32 =
      .ok ⟨⟨(masterKey.data ++ bytesToHex urandom32).take 64⟩, true⟩ ∧
    (⟨(masterKey.data ++ bytesToHex urandom32).take 64⟩ : String).length = 64 := by
  constructor
  · rw [SimpleEncryptionManager.init, if_pos hshort]
  · show ((masterKey.data ++ bytesToHex urandom32).take 64).length = 64
    rw [List.length_take, List.length_append, bytesToHex_length, hlen]
    omega

/-- Witness for C4's amended statement at a concrete short key. -/
theorem C4_fallback_key_witness :
    SimpleEncryptionManager.init "short" (List.replicate 32 255) =
      .ok ⟨⟨("short".data ++ bytesToHex (List.replicate 32 255)).take 64⟩, true⟩ ∧
    (⟨("short".data ++ bytesToHex (List.replicate 32 255)).take 64⟩ : String).length = 64 :=
  C4_fallback_key "short" (List.replicate 32 255) (Or.inr (by decide)) (by decide)

/-- C5: for every database state and object id, `get_trail` returns the
records in non-decreasing timestamp order (SQLite `ORDER BY timestamp`),
it returns exactly the records previously inserted with that
`object_id` (as a permutation of the matching rows), and it returns the
empty sequence — not an error — when no such records exist. -/
theorem C5_audit_trail (db : List AuditRecord) (oid : String) :
    List.Sorted tsLe (AuditLogger.get_trail db oid) ∧
    List.Perm (AuditLogger.get_trail db oid)
      (db.filter (fun r => decide (r.object_id = some oid))) ∧
    ((∀ r ∈ db, r.object_id ≠ some oid) → AuditLogger.get_trail db oid = []) := by
  haveI h1 : IsTotal AuditRecord tsLe := ⟨fun a b => charListLe_total _ _⟩
  haveI h2 : IsTrans AuditRecord tsLe := ⟨fun a b c => charListLe_trans _ _ _⟩
  refine ⟨List.sorted_insertionSort tsLe _, List.perm_insertionSort tsLe _, fun hnone => ?_⟩
  rw [AuditLogger.get_trail, List.filter_eq_nil_iff.mpr (by
    intro r hr
    simp [hnone r hr])]
  rfl

/-- Witness for C5 at a concrete two-record database and an absent id. -/
theorem C5_audit_trail_witness :
    List.Sorted tsLe (AuditLogger.get_trail
      [⟨"id1", "2024-01-02T00:00:00Z", some "u", "access", some "t", some "x", ""⟩,
       ⟨"id2", "2024-01-01T00:00:00Z", none, "create", none, some "y", ""⟩] "z") ∧
    List.Perm (AuditLogger.get_trail
      [⟨"id1", "2024-01-02T00:00:00Z", some "u", "access", some "t", some "x", ""⟩,
       ⟨"id2", "2024-01-01T00:00:00Z", none, "create", none, some "y", ""⟩] "z")
      (List.filter (fun r => decide (r.object_id = some "z"))
        [⟨"id1", "2024-01-02T00:00:00Z", some "u", "access", some "t", some "x", ""⟩,
         ⟨"id2", "2024-01-01T00:00:00Z", none, "create", none, some "y", ""⟩]) ∧
    AuditLogger.get_trail
      [⟨"id1", "2024-01-02T00:00:00Z", some "u", "access", some "t", some "x", ""⟩,
       ⟨"id2", "2024-01-01T00:00:00Z", none, "create", none, some "y", ""⟩] "z" = [] := by
  refine ⟨(C5_audit_trail _ "z").1, (C5_audit_trail _ "z").2.1,
    (C5_audit_trail _ "z").2.2 (by decide)⟩

/-- C6: the audit trail is append-only.  Under any sequence of the
operations the repository performs on the `audit_logs` table (`log`,
`get_trail`, `get_last`, `_init_db` — there is no `UPDATE` or `DELETE`
statement in the code), the prior database state survives unchanged as a
prefix: every previously written record is still present, in place and
unmodified. -/
theorem C6_append_only (db : List AuditRecord) (ops : List AuditOp) :
    ∃ rest, List.foldl AuditLogger.applyOp db ops = db ++ rest := by
  induction ops generalizing db with
  | nil => exact ⟨[], by simp⟩
  | cons op ops ih =>
    rw [List.foldl_cons]
    obtain ⟨rest, hrest⟩ := ih (AuditLogger.applyOp db op)
    cases op with
    | log rec =>
      refine ⟨[rec] ++ rest, ?_⟩
      rw [hrest]
      simp [AuditLogger.applyOp, AuditLogger.log]
    | get_trail oid => exact ⟨rest, hrest⟩
    | get_last n => exact ⟨rest, hrest⟩
    | init_db => exact ⟨rest, hrest⟩

/-- C7: `analyze_pdf_safety` — the rule-based engine that resolves
document text against the keyword rules — is deterministic: it is a pure
function of the document text and metadata (the source makes no random,
clock or locale-dependent calls), so two runs on equal inputs return
equal results, bit for bit. -/
theorem C7_extraction_deterministic (t1 t2 : String) (m1 m2 : List (String × String))
    (ht : t1 = t2) (hm : m1 = m2) :
    analyze_pdf_safety t1 m1 = analyze_pdf_safety t2 m2 := by
  rw [ht, hm]

/-- Witness for C7 on a concrete document text. -/
theorem C7_extraction_deterministic_witness :
    analyze_pdf_safety "Gefährdungsbeurteilung: Lärm an der Säge" [("title", "GBU")] =
      analyze_pdf_safety "Gefährdungsbeurteilung: Lärm an der Säge" [("title", "GBU")] :=
  C7_extraction_deterministic _ _ _ _ rfl rfl

/-- C8 counterexample: `get_last` does not return at most `N` records
for every limit `N`.  SQLite treats a negative `LIMIT` as unbounded, so
for `N = -1` on a one-record database the query returns 1 record, and
`1 ≤ -1` is false. -/
theorem C8_counterexample :
    ¬ (((AuditLogger.get_last
      [⟨"id1", "2024-01-01T00:00:00Z", none, "access", none, some "x", ""⟩]
      (-1)).length : Int) ≤ -1) := by
  decide

/-- C8 amended: `get_last` always returns records in non-increasing
timestamp order (`ORDER BY timestamp DESC`), and for every non-negative
limit `N` it returns at most `N` records; a negative limit is passed to
SQLite's `LIMIT`, which then imposes no bound. -/
theorem C8_recent_bounded_desc (db : List AuditRecord) (limit : Int) :
    List.Sorted tsGe (AuditLogger.get_last db limit) ∧
    (0 ≤ limit → ((AuditLogger.get_last db limit).length : Int) ≤ limit) := by
  haveI h1 : IsTotal AuditRecord tsGe := ⟨fun a b => charListLe_total _ _⟩
  haveI h2 : IsTrans AuditRecord tsGe :=
    ⟨fun a b c hab hbc => charListLe_trans _ _ _ hbc hab⟩
  constructor
  · rw [AuditLogger.get_last]
    split
    · exact List.sorted_insertionSort tsGe db
    · exact List.Pairwise.sublist (List.take_sublist _ _)
        (List.sorted_insertionSort tsGe db)
  · intro hpos
    rw [AuditLogger.get_last]
    rw [if_neg (by omega)]
    have hlen : (List.take limit.toNat (List.insertionSort tsGe db)).length ≤ limit.toNat := by
      rw [List.length_take]
      omega
    omega

/-- Witness for C8's amended statement at a concrete database and
limit 1. -/
theorem C8_recent_bounded_desc_witness :
    List.Sorted tsGe (AuditLogger.get_last
      [⟨"id1", "2024-01-02T00:00:00Z", some "u", "access", some "t", some "x", ""⟩,
       ⟨"id2", "2024-01-01T00:00:00Z", none, "create", none, some "y", ""⟩] 1) ∧
    ((AuditLogger.get_last
      [⟨"id1", "2024-01-02T00:00:00Z", some "u", "access", some "t", some "x", ""⟩,
       ⟨"id2", "2024-01-01T00:00:00Z", none, "create", none, some "y", ""⟩] 1).length : Int)
      ≤ 1 :=
  ⟨(C8_recent_bounded_desc _ 1).1, (C8_recent_bounded_desc _ 1).2 (by decide)⟩

/-- C9 counterexample: a template whose single field references the
declared section `"s1"` (all section references valid) but is a
`single-choice` field with empty `choices` is rejected by `validate` —
so "accepts every template whose field references are all valid" fails
as stated. -/
theorem C9_counterexample :
    sectionRefsValid
      (Template.mk "t1" "Titel" "de" [⟨"s1", "Abschnitt"⟩]
        [⟨"f1", "Feld", .singleChoice, false, "s1", [], none, none⟩]) = true ∧
    validate
      (Template.mk "t1" "Titel" "de" [⟨"s1", "Abschnitt"⟩]
        [⟨"f1", "Feld", .singleChoice, false, "s1", [], none, none⟩]) =
      .error "ValidationError: a single-choice field has empty choices" := by
  constructor
  · decide
  · decide

/-- C9 amended: `validate` (and therefore `save`, which validates before
persisting anything) rejects every template containing a field whose
`section_id` does not resolve to a declared `Section.id`; and it accepts
every template that passes all three checks of §4.3 — valid section
references, non-empty `choices` on `single-choice` fields, and unique
field and section ids. -/
theorem C9_validate (t : Template) (registry : List Template) :
    ((∃ f ∈ t.fields, ∀ s ∈ t.sections, s.id ≠ f.section_id) →
      (∃ e, validate t = .error e) ∧ ∃ e, save registry t = .error e) ∧
    (sectionRefsValid t = true → choicesValid t = true → idsUnique t = true →
      validate t = .ok () ∧
      save registry t = .ok (registry.filter (fun u => u.id != t.id) ++ [t])) := by
  constructor
  · rintro ⟨f, hf, hno⟩
    have hbad : sectionRefsValid t = false := by
      cases hsrv : sectionRefsValid t
      · rfl
      · exfalso
        have hall := List.all_eq_true.mp hsrv f hf
        obtain ⟨s, hs, hbeq⟩ := List.any_eq_true.mp hall
        exact hno s hs (eq_of_beq hbeq)
    have hv : validate t =
        .error "ValidationError: a field section_id does not resolve to a declared Section.id" := by
      unfold validate
      rw [if_pos (by simp [hbad])]
    refine ⟨⟨_, hv⟩,
      ⟨"ValidationError: a field section_id does not resolve to a declared Section.id", ?_⟩⟩
    unfold save
    rw [hv]
  · intro ha hb hc
    have hv : validate t = .ok () := by
      unfold validate
      rw [if_neg (by simp [ha]), if_neg (by simp [hb]), if_neg (by simp [hc])]
    refine ⟨hv, ?_⟩
    unfold save
    rw [hv]

/-- Witness for C9's amended statement: a concrete template with a
dangling `section_id` is rejected, a concrete fully valid template is
accepted. -/
theorem C9_validate_witness :
    (∃ e, validate (Template.mk "t2" "Titel" "de" [⟨"s1", "Abschnitt"⟩]
      [⟨"f1", "Feld", .text, false, "nope", [], none, none⟩]) = .error e) ∧
    validate (Template.mk "t3" "Titel" "de" [⟨"s1", "Abschnitt"⟩]
      [⟨"f1", "Feld", .text, false, "s1", [], none, none⟩]) = .ok () := by
  constructor
  · exact ((C9_validate _ []).1
      ⟨⟨"f1", "Feld", .text, false, "nope", [], none, none⟩, by decide, by decide⟩).1
  · exact ((C9_validate _ []).2 (by decide) (by decide) (by decide)).1

/-- C10: for every input text and metadata, `analyze_pdf_safety` is a
total function (it never raises) whose `hazards_detected` list is never
empty; when no keyword category matches, the list is exactly the single
fallback hazard with category `"unspezifisch"` and severity 0.3; and
`max_severity` is always at least 0.3. -/
theorem C10_hazards_never_empty (text : String) (metadata : List (String × String)) :
    (analyze_pdf_safety text metadata).hazards_detected ≠ [] ∧
    (3/10 : ℚ) ≤ (analyze_pdf_safety text metadata).max_severity ∧
    (keywordHit (pyLower text) chemKeywords = false →
     keywordHit (pyLower text) machineKeywords = false →
     keywordHit (pyLower text) fallKeywords = false →
     keywordHit (pyLower text) noiseKeywords = false →
     keywordHit (pyLower text) stressKeywords = false →
     (analyze_pdf_safety text metadata).hazards_detected = [fallbackHazard]) := by
  refine ⟨detectedHazards_ne_nil _, ?_, ?_⟩
  · show (3/10 : ℚ) ≤ maxOrDefault 0 ((detectedHazards (pyLower text)).map (·.severity))
    refine maxOrDefault_ge _ _ (fun hmap => detectedHazards_ne_nil (pyLower text)
      (List.map_eq_nil_iff.mp hmap)) _ ?_
    intro x hx
    obtain ⟨h, hh, rfl⟩ := List.mem_map.mp hx
    exact detectedHazards_severity _ h hh
  · intro h1 h2 h3 h4 h5
    show detectedHazards (pyLower text) = [fallbackHazard]
    unfold detectedHazards
    rw [if_pos (by simp [baseHazards, h1, h2, h3, h4, h5])]

/-- Witness for C10 on the empty document: no category matches, the
fallback hazard is returned, and `max_severity` is 0.3. -/
theorem C10_hazards_never_empty_witness :
    (analyze_pdf_safety "" []).hazards_detected ≠ [] ∧
    (3/10 : ℚ) ≤ (analyze_pdf_safety "" []).max_severity ∧
    (analyze_pdf_safety "" []).hazards_detected = [fallbackHazard] := by
  have h := C10_hazards_never_empty "" []
  exact ⟨h.1, h.2.1,
    h.2.2 (by decide) (by decide) (by decide) (by decide) (by decide)⟩

end Safety360
